import Mathlib

/-!
A shallow embedding of the chess move text codecs of `notation.go`
(package chess): the UCI, Standard Algebraic and Long Algebraic
encoders and decoders, together with proofs of the specification
properties of that file.

Strings are modelled as `List Char` (`CStr`); Go string slicing,
concatenation and `strings.Replace` are modelled by the corresponding
list operations.  Types that the codec consumes but that are defined
elsewhere in the library (`Square`, `PieceType`, `Color`, `Piece`,
`Move`, `Position`) are modelled from the specification's data model.
-/

/-- Character-list strings: the embedding of Go strings. -/
abbrev CStr := List Char

/-- Shorthand turning a string literal into its character list. -/
def str (s : String) : CStr := s.data

/-- Modelled from the spec: piece colors, with `NoColor` the absent sentinel. -/
inductive Color where
  | White
  | Black
  | NoColor
deriving DecidableEq

export Color (White Black NoColor)

/-- Modelled from the spec: the piece-type enumeration, with `NoPieceType`
the explicit "absent" sentinel used for "no promotion". -/
inductive PieceType where
  | King
  | Queen
  | Rook
  | Bishop
  | Knight
  | Pawn
  | NoPieceType
deriving DecidableEq

export PieceType (King Queen Rook Bishop Knight Pawn NoPieceType)

/-- Modelled from the spec: a piece is a type together with a color;
an empty square holds `⟨NoPieceType, NoColor⟩`. -/
structure Piece where
  ptype : PieceType
  color : Color
deriving DecidableEq

/-- The empty-square piece value. -/
def NoPiece : Piece := ⟨NoPieceType, NoColor⟩

/-- Modelled from the spec: a square is one of the 64 board cells,
numbered rank-major from a1 = 0 to h8 = 63. -/
abbrev Square := Fin 64

/-- The file (column) index 0–7 of a square. -/
def fileIdx (sq : Square) : Nat := sq.val % 8

/-- The rank (row) index 0–7 of a square. -/
def rankIdx (sq : Square) : Nat := sq.val / 8

/-- The file letters in board order. -/
def fileChars : List Char := ['a', 'b', 'c', 'd', 'e', 'f', 'g', 'h']

/-- The rank digits in board order. -/
def rankChars : List Char := ['1', '2', '3', '4', '5', '6', '7', '8']

/-- The text of a square's file, as in `Square.File().String()`. -/
def fileCharOf (sq : Square) : Char := fileChars.getD (fileIdx sq) ' '

/-- The text of a square's rank, as in `Square.Rank().String()`. -/
def rankCharOf (sq : Square) : Char := rankChars.getD (rankIdx sq) ' '

/-- Modelled from the spec: the canonical two-character text form of a
square, file letter then rank digit (`Square.String()`). -/
def squareToStr (sq : Square) : CStr := [fileCharOf sq, rankCharOf sq]

/-- Modelled from the spec: the `strToSquareMap` lookup, mapping the 64
known square texts "a1".."h8" to squares and everything else to `none`. -/
def squareFromStr (s : CStr) : Option Square :=
  match s with
  | [f, r] =>
    let fi := fileChars.indexOf f
    let ri := rankChars.indexOf r
    if h : fi < 8 ∧ ri < 8 then some ⟨ri * 8 + fi, by omega⟩ else none
  | _ => none

namespace Sq

/-- The square e1. -/
def E1 : Square := ⟨4, by decide⟩

/-- The square g1. -/
def G1 : Square := ⟨6, by decide⟩

/-- The square c1. -/
def C1 : Square := ⟨2, by decide⟩

/-- The square e8. -/
def E8 : Square := ⟨60, by decide⟩

/-- The square g8. -/
def G8 : Square := ⟨62, by decide⟩

/-- The square c8. -/
def C8 : Square := ⟨58, by decide⟩

end Sq

/-- Modelled from the spec: the semantic tags a move can carry. -/
inductive MoveTag where
  | KingSideCastle
  | QueenSideCastle
  | Capture
  | EnPassant
  | Check
deriving DecidableEq

/-- Modelled from the spec: a move is an origin square `S1`, a destination
square `S2`, a promotion piece type (`NoPieceType` if none) and a set of
semantic tags, here one boolean field per tag. -/
structure Move where
  S1 : Square
  S2 : Square
  promo : PieceType
  tagKingSideCastle : Bool
  tagQueenSideCastle : Bool
  tagCapture : Bool
  tagEnPassant : Bool
  tagCheck : Bool
deriving DecidableEq

/-- A bare move: the given coordinates with every tag cleared. -/
def Move.bare (S1 S2 : Square) (promo : PieceType) : Move :=
  ⟨S1, S2, promo, false, false, false, false, false⟩

/-- `Move.HasTag`: whether the move carries the given tag. -/
def Move.hasTag (m : Move) : MoveTag → Bool
  | MoveTag.KingSideCastle => m.tagKingSideCastle
  | MoveTag.QueenSideCastle => m.tagQueenSideCastle
  | MoveTag.Capture => m.tagCapture
  | MoveTag.EnPassant => m.tagEnPassant
  | MoveTag.Check => m.tagCheck

/-- `Move.addTag`: the move with the given tag set. -/
def Move.addTag (m : Move) : MoveTag → Move
  | MoveTag.KingSideCastle => { m with tagKingSideCastle := true }
  | MoveTag.QueenSideCastle => { m with tagQueenSideCastle := true }
  | MoveTag.Capture => { m with tagCapture := true }
  | MoveTag.EnPassant => { m with tagEnPassant := true }
  | MoveTag.Check => { m with tagCheck := true }

/-- Modelled from the spec: the game-status enumeration of a position,
of which the codec only ever inspects `Checkmate`. -/
inductive GameStatus where
  | Normal
  | Check
  | Checkmate
  | Stalemate
deriving DecidableEq

/-- Modelled from the spec: the external `Position` collaborator, read-only
for the codec.  `board` is `pos.Board().Piece(·)`; `enPassantSquare` is the
designated en-passant target square, if any; `validMoves` is the list of
currently legal moves in enumeration order; `statusAfter m` is
`pos.Update(m).Status()`, the status of the position obtained by applying
`m` (the codec's only use of `Update`); `render` is `pos.String()`, the
text used in error messages. -/
structure Position where
  board : Square → Piece
  enPassantSquare : Option Square
  validMoves : List Move
  statusAfter : Move → GameStatus
  render : CStr

/-- `charFromPieceType`: the uppercase algebraic letter of a piece type,
empty for pawns and the absent piece type. -/
def charFromPieceType (p : PieceType) : CStr :=
  match p with
  | King => ['K']
  | Queen => ['Q']
  | Rook => ['R']
  | Bishop => ['B']
  | Knight => ['N']
  | _ => []

/-- `charForPromo`: the promotion suffix, "=" plus the piece letter,
empty when there is no letter. -/
def charForPromo (p : PieceType) : CStr :=
  let c := charFromPieceType p
  if c ≠ [] then '=' :: c else c

/-- `pieceTypeFromChar`: the lowercase promotion-letter table of UCI decode. -/
def pieceTypeFromChar (c : CStr) : PieceType :=
  if c = ['q'] then Queen
  else if c = ['r'] then Rook
  else if c = ['b'] then Bishop
  else if c = ['n'] then Knight
  else NoPieceType

/-- Modelled from the spec: `PieceType.String()`, the lowercase letter of a
piece type ("" for the absent piece type), used by UCI encode for the
promotion suffix. -/
def pieceTypeLower (p : PieceType) : CStr :=
  match p with
  | King => ['k']
  | Queen => ['q']
  | Rook => ['r']
  | Bishop => ['b']
  | Knight => ['n']
  | Pawn => ['p']
  | NoPieceType => []

/-- One pass of Go's `strings.Replace(s, pat, "", -1)` with explicit fuel:
deletes the non-overlapping occurrences of `pat` found scanning `s` left to
right.  The fuel is an upper bound on the length of `s`, so the initial
call `replaceAll` never exhausts it. -/
def replaceFuel (pat : CStr) : Nat → CStr → CStr
  | _, [] => []
  | 0, s => s
  | f + 1, c :: cs =>
    if pat ≠ [] ∧ pat.isPrefixOf (c :: cs) then
      replaceFuel pat f ((c :: cs).drop pat.length)
    else
      c :: replaceFuel pat f cs

/-- `strings.Replace(s, pat, "", -1)`: delete all non-overlapping
occurrences of `pat` from `s`, scanning left to right. -/
def replaceAll (s pat : CStr) : CStr := replaceFuel pat s.length s

/-- `removeSubstrings`: delete each of the given substrings from `s`
in turn. -/
def removeSubstrings (s : CStr) (subs : List CStr) : CStr :=
  subs.foldl replaceAll s

/-- The characters of the "e.p." decoration. -/
def epTok : CStr := ['e', '.', 'p', '.']

/-- The decoration substrings stripped by SAN and Long Algebraic decode,
in the order the source passes them: "?", "!", "+", "#", "e.p.". -/
def decorTokens : List CStr := [['?'], ['!'], ['+'], ['#'], epTok]

/-- Strip all decorations from a string, as both algebraic decoders do. -/
def stripDecorations (s : CStr) : CStr := removeSubstrings s decorTokens

/-- The rendering of a nilable position pointer under `%s`, as interpolated
into UCI decode's error text. -/
def posRender (pos : Option Position) : CStr :=
  match pos with
  | some p => p.render
  | none => str "<nil>"

namespace UCI

/-- `UCINotation.Decode`'s error text; note it names long algebraic, not
UCI, and quotes the raw input. -/
def errMsg (pos : Option Position) (s : CStr) : CStr :=
  str "chess: failed to decode long algebraic notation text \"" ++ s
    ++ str "\" for position " ++ posRender pos

/-- `UCINotation.Encode`: origin text, destination text, and the lowercase
promotion letter if a promotion is present. -/
def encode (_pos : Option Position) (m : Move) : CStr :=
  squareToStr m.S1 ++ squareToStr m.S2 ++ pieceTypeLower m.promo

/-- The tag-inference block of `UCINotation.Decode` (lines 72–88): castle
tags for king moves between the castling squares, en-passant and capture
tags for a pawn landing on the en-passant target, and a capture tag when
the destination holds a piece of a different color than the origin. -/
def inferTags (p : Position) (m0 : Move) : Move :=
  let pc := p.board m0.S1
  let m1 :=
    if pc.ptype = King then
      if (m0.S1 = Sq.E1 ∧ m0.S2 = Sq.G1) ∨ (m0.S1 = Sq.E8 ∧ m0.S2 = Sq.G8) then
        m0.addTag MoveTag.KingSideCastle
      else if (m0.S1 = Sq.E1 ∧ m0.S2 = Sq.C1) ∨ (m0.S1 = Sq.E8 ∧ m0.S2 = Sq.C8) then
        m0.addTag MoveTag.QueenSideCastle
      else m0
    else if pc.ptype = Pawn ∧ some m0.S2 = p.enPassantSquare then
      (m0.addTag MoveTag.EnPassant).addTag MoveTag.Capture
    else m0
  let c1 := pc.color
  let c2 := (p.board m0.S2).color
  if c2 ≠ NoColor ∧ c1 ≠ c2 then m1.addTag MoveTag.Capture else m1

/-- `UCINotation.Decode`: length must be 4 or 5, the two square texts must
be known, a fifth character must be a known promotion letter; with a
position supplied the tags of the move are inferred, otherwise the bare
move is returned. -/
def decode (pos : Option Position) (s : CStr) : Except CStr Move :=
  let err := errMsg pos s
  let l := s.length
  if l < 4 ∨ l > 5 then Except.error err
  else
    match squareFromStr (s.take 2) with
    | none => Except.error err
    | some S1 =>
      match squareFromStr ((s.drop 2).take 2) with
      | none => Except.error err
      | some S2 =>
        let promo := if l = 5 then pieceTypeFromChar (s.drop 4) else NoPieceType
        if l = 5 ∧ promo = NoPieceType then Except.error err
        else
          let m := Move.bare S1 S2 promo
          match pos with
          | none => Except.ok m
          | some p => Except.ok (inferTags p m)

end UCI

/-- `getCheckChar`: empty unless the move is tagged Check; then "#" when
the position after the move is checkmate and "+" otherwise. -/
def getCheckChar (pos : Position) (move : Move) : CStr :=
  if move.hasTag MoveTag.Check = false then []
  else if pos.statusAfter move = GameStatus.Checkmate then ['#']
  else ['+']

/-- `formS1`: the SAN disambiguation qualifier.  Empty for pawns;
otherwise a scan of the legal moves sets `req` for every competing move
(same piece, same destination, different origin), `rankReq` when a
competitor shares the origin file and `fileReq` when a competitor shares
the origin rank; the qualifier is the origin file when
`fileReq || !rankReq && req`, followed by the origin rank when `rankReq`. -/
def formS1 (pos : Position) (m : Move) : CStr :=
  let p := pos.board m.S1
  if p.ptype = Pawn then []
  else
    let flags := pos.validMoves.foldl
      (fun (acc : Bool × Bool × Bool) mv =>
        if mv.S1 ≠ m.S1 ∧ mv.S2 = m.S2 ∧ p = pos.board mv.S1 then
          (true,
            acc.2.1 || decide (rankIdx mv.S1 = rankIdx m.S1),
            acc.2.2 || decide (fileIdx mv.S1 = fileIdx m.S1))
        else acc)
      (false, false, false)
    let req := flags.1
    let fileReq := flags.2.1
    let rankReq := flags.2.2
    (if fileReq || (!rankReq && req) then [fileCharOf m.S1] else [])
      ++ (if rankReq then [rankCharOf m.S1] else [])

namespace SAN

/-- `AlgebraicNotation.Encode`: castles render as "O-O"/"O-O-O" plus the
check suffix; otherwise piece letter, minimal disambiguation, capture
marker (origin file plus "x" for an unqualified pawn capture), destination
text, promotion suffix and check suffix. -/
def encode (pos : Position) (m : Move) : CStr :=
  let checkChar := getCheckChar pos m
  if m.hasTag MoveTag.KingSideCastle then str "O-O" ++ checkChar
  else if m.hasTag MoveTag.QueenSideCastle then str "O-O-O" ++ checkChar
  else
    let p := pos.board m.S1
    let pChar := charFromPieceType p.ptype
    let S1Str := formS1 pos m
    let capChar :=
      if m.hasTag MoveTag.Capture || m.hasTag MoveTag.EnPassant then
        if p.ptype = Pawn ∧ S1Str = [] then [fileCharOf m.S1, 'x'] else ['x']
      else []
    let promoText := charForPromo m.promo
    pChar ++ S1Str ++ capChar ++ squareToStr m.S2 ++ promoText ++ checkChar

end SAN

namespace LAN

/-- `LongAlgebraicNotation.Encode`: as SAN's encode but the disambiguation
field is always the full origin-square text. -/
def encode (pos : Position) (m : Move) : CStr :=
  let checkChar := getCheckChar pos m
  if m.hasTag MoveTag.KingSideCastle then str "O-O" ++ checkChar
  else if m.hasTag MoveTag.QueenSideCastle then str "O-O-O" ++ checkChar
  else
    let p := pos.board m.S1
    let pChar := charFromPieceType p.ptype
    let S1Str := squareToStr m.S1
    let capChar :=
      if m.hasTag MoveTag.Capture || m.hasTag MoveTag.EnPassant then
        if p.ptype = Pawn ∧ S1Str = [] then [fileCharOf m.S1, 'x'] else ['x']
      else []
    let promoText := charForPromo m.promo
    pChar ++ S1Str ++ capChar ++ squareToStr m.S2 ++ promoText ++ checkChar

end LAN

/-- The `for _, m := range pos.ValidMoves()` loop shared by both algebraic
decoders: return the first move in the list whose stripped encoding under
`encFn` equals the stripped target. -/
def decodeLoop (pos : Position) (encFn : Position → Move → CStr)
    (target : CStr) : List Move → Option Move
  | [] => none
  | m :: tl =>
    if stripDecorations (encFn pos m) = target then some m
    else decodeLoop pos encFn target tl

namespace SAN

/-- `AlgebraicNotation.Decode`: strip decorations from the input, return
the first legal move whose stripped encoding matches, else an error whose
text interpolates the stripped input and the position rendering. -/
def decode (pos : Position) (s : CStr) : Except CStr Move :=
  let s' := stripDecorations s
  match decodeLoop pos SAN.encode s' pos.validMoves with
  | some m => Except.ok m
  | none =>
    Except.error (str "chess: could not decode algebraic notation " ++ s'
      ++ str " for position " ++ pos.render)

end SAN

namespace LAN

/-- `LongAlgebraicNotation.Decode`: as SAN's decode, with this codec's
encode and error text. -/
def decode (pos : Position) (s : CStr) : Except CStr Move :=
  let s' := stripDecorations s
  match decodeLoop pos LAN.encode s' pos.validMoves with
  | some m => Except.ok m
  | none =>
    Except.error (str "chess: could not decode long algebraic notation " ++ s'
      ++ str " for position " ++ pos.render)

end LAN

/-- Whether an `Except` result is a success. -/
def isOkE (e : Except CStr Move) : Bool :=
  match e with
  | Except.ok _ => true
  | Except.error _ => false

/-- Whether `pat` occurs as a contiguous substring of the second string. -/
def occurs (pat : CStr) : CStr → Bool
  | [] => pat.isPrefixOf []
  | c :: cs => pat.isPrefixOf (c :: cs) || occurs pat cs

/-- A character that none of the five decoration tokens contains. -/
abbrev fullCleanChar (c : Char) : Prop :=
  c ≠ '?' ∧ c ≠ '!' ∧ c ≠ '+' ∧ c ≠ '#' ∧ c ≠ '.'

/-- A character that the encoders can emit but the "?", "!" and "e.p."
decorations cannot contain. -/
abbrev encCleanChar (c : Char) : Prop := c ≠ '?' ∧ c ≠ '!' ∧ c ≠ '.'

/-- `Decor s t`: `t` is obtained from `s` by inserting whole decoration
tokens at arbitrary gap positions. -/
inductive Decor : CStr → CStr → Prop where
  | nil : Decor [] []
  | chr (c : Char) {s t : CStr} : Decor s t → Decor (c :: s) (c :: t)
  | tok (tk : CStr) {s t : CStr} : tk ∈ decorTokens → Decor s t → Decor s (tk ++ t)

/-- `DecorEP s t`: `t` is obtained from `s` by inserting whole "e.p."
tokens at arbitrary gap positions. -/
inductive DecorEP : CStr → CStr → Prop where
  | nil : DecorEP [] []
  | chr (c : Char) {s t : CStr} : DecorEP s t → DecorEP (c :: s) (c :: t)
  | tok {s t : CStr} : DecorEP s t → DecorEP s (epTok ++ t)

/-- Removal of the four single-character decorations. -/
def filt4 (t : CStr) : CStr :=
  (((t.filter (fun x => x != '?')).filter (fun x => x != '!')).filter
      (fun x => x != '+')).filter (fun x => x != '#')

/-- A white pawn's double step from e2, untagged. -/
def pawnMove : Move := Move.bare (12 : Fin 64) (28 : Fin 64) NoPieceType

/-- A position with a lone white pawn on e2 whose only legal move is the
double step to e4. -/
def pawnPos : Position where
  board := fun sq => if sq.val = 12 then ⟨Pawn, White⟩ else NoPiece
  enPassantSquare := none
  validMoves := [pawnMove]
  statusAfter := fun _ => GameStatus.Normal
  render := str "pawn position"

/-- Knight from b1 to d2, untagged. -/
def knightMoveB : Move := Move.bare (1 : Fin 64) (11 : Fin 64) NoPieceType

/-- Knight from f1 to d2, untagged. -/
def knightMoveF : Move := Move.bare (5 : Fin 64) (11 : Fin 64) NoPieceType

/-- A position with white knights on b1 and f1 that can both reach d2. -/
def knightPos : Position where
  board := fun sq => if sq.val = 1 ∨ sq.val = 5 then ⟨Knight, White⟩ else NoPiece
  enPassantSquare := none
  validMoves := [knightMoveB, knightMoveF]
  statusAfter := fun _ => GameStatus.Normal
  render := str "knight position"

/-- Rook from a1 to a8, tagged as giving check. -/
def rookCheckMove : Move :=
  ⟨(0 : Fin 64), (56 : Fin 64), NoPieceType, false, false, false, false, true⟩

/-- A position with a white rook on a1, white king on g1 and black king on
e8, where Ra8 is a legal checking move. -/
def rookCheckPos : Position where
  board := fun sq =>
    if sq.val = 0 then ⟨Rook, White⟩
    else if sq.val = 6 then ⟨King, White⟩
    else if sq.val = 60 then ⟨King, Black⟩
    else NoPiece
  enPassantSquare := none
  validMoves := [rookCheckMove]
  statusAfter := fun _ => GameStatus.Check
  render := str "rook check position"

/-- The rook-check position, but with the move delivering checkmate. -/
def matePos : Position where
  board := rookCheckPos.board
  enPassantSquare := none
  validMoves := [rookCheckMove]
  statusAfter := fun _ => GameStatus.Checkmate
  render := str "mate position"

/-- A position whose only piece is a white pawn on d5; the square e4 is
empty. -/
def emptyOriginPos : Position where
  board := fun sq => if sq.val = 35 then ⟨Pawn, White⟩ else NoPiece
  enPassantSquare := none
  validMoves := []
  statusAfter := fun _ => GameStatus.Normal
  render := str "empty origin position"

/-- A king move from e1 to g1 carrying both castle tags at once. -/
def doubleCastleMove : Move :=
  ⟨(4 : Fin 64), (6 : Fin 64), NoPieceType, true, true, false, false, false⟩

/-- A king-side castle move, tagged only as such. -/
def kscMove : Move :=
  ⟨(4 : Fin 64), (6 : Fin 64), NoPieceType, true, false, false, false, false⟩

/-- A queen-side castle move, tagged only as such. -/
def qscMove : Move :=
  ⟨(4 : Fin 64), (2 : Fin 64), NoPieceType, false, true, false, false, false⟩

theorem replaceFuel_nil (pat : CStr) (f : Nat) : replaceFuel pat f [] = [] := by
  cases f <;> rfl

theorem replaceFuel_cons (pat : CStr) (f : Nat) (c : Char) (cs : CStr) :
    replaceFuel pat (f + 1) (c :: cs) =
      if pat ≠ [] ∧ pat.isPrefixOf (c :: cs) then
        replaceFuel pat f ((c :: cs).drop pat.length)
      else c :: replaceFuel pat f cs := rfl

theorem isPrefixOf_append_self (l t : CStr) : l.isPrefixOf (l ++ t) = true :=
  List.isPrefixOf_iff_prefix.mpr ⟨t, rfl⟩

theorem replaceFuel_singleton (c : Char) :
    ∀ (s : CStr) (f : Nat), s.length ≤ f →
      replaceFuel [c] f s = s.filter (fun x => x != c)
  | [], f, _ => by cases f <;> rfl
  | a :: as, 0, h => by simp at h
  | a :: as, f + 1, h => by
    have hlen : as.length ≤ f := Nat.le_of_succ_le_succ (by simpa using h)
    have ih := replaceFuel_singleton c as f hlen
    by_cases hac : c = a
    · subst hac
      simp [replaceFuel_cons, List.isPrefixOf, ih]
    · have : (c == a) = false := by simp [hac]
      simp [replaceFuel_cons, List.isPrefixOf, this, ih, Ne.symm hac]

theorem replaceAll_singleton (s : CStr) (c : Char) :
    replaceAll s [c] = s.filter (fun x => x != c) :=
  replaceFuel_singleton c s s.length (Nat.le_refl _)

theorem replaceFuel_no_occ (pat : CStr) (d : Char) (hd : d ∈ pat) :
    ∀ (s : CStr) (f : Nat), s.length ≤ f → d ∉ s → replaceFuel pat f s = s
  | [], f, _, _ => replaceFuel_nil pat f
  | a :: as, 0, h, _ => absurd h (by simp)
  | a :: as, f + 1, h, hns => by
    have hpre : ¬(pat ≠ [] ∧ pat.isPrefixOf (a :: as)) := by
      rintro ⟨-, hp⟩
      rcases List.isPrefixOf_iff_prefix.mp hp with ⟨t, ht⟩
      exact hns (ht ▸ List.mem_append.mpr (Or.inl hd))
    have hlen : as.length ≤ f := Nat.le_of_succ_le_succ (by simpa using h)
    have ih := replaceFuel_no_occ pat d hd as f hlen
      (fun hmem => hns (List.mem_cons_of_mem _ hmem))
    rw [replaceFuel_cons, if_neg hpre, ih]

theorem replaceAll_no_occ (pat : CStr) (d : Char) (hd : d ∈ pat) (s : CStr)
    (hns : d ∉ s) : replaceAll s pat = s :=
  replaceFuel_no_occ pat d hd s s.length (Nat.le_refl _) hns

theorem stripDecorations_as_replace (t : CStr) :
    stripDecorations t = replaceAll (filt4 t) epTok := by
  simp only [stripDecorations, removeSubstrings, decorTokens, List.foldl,
    replaceAll_singleton, filt4]

theorem strip_as_filt4 (s : CStr) (hdot : '.' ∉ s) :
    stripDecorations s = filt4 s := by
  rw [stripDecorations_as_replace]
  refine replaceAll_no_occ epTok '.' (by decide) _ (fun hmem => hdot ?_)
  exact List.mem_of_mem_filter (List.mem_of_mem_filter
    (List.mem_of_mem_filter (List.mem_of_mem_filter hmem)))

theorem filt4_clean (s : CStr) (h : ∀ c ∈ s, encCleanChar c) :
    ∀ c ∈ filt4 s, fullCleanChar c := by
  intro c hc
  unfold filt4 at hc
  rcases List.mem_filter.mp hc with ⟨hc3, h4⟩
  rcases List.mem_filter.mp hc3 with ⟨hc2, h3⟩
  rcases List.mem_filter.mp hc2 with ⟨hc1, -⟩
  rcases List.mem_filter.mp hc1 with ⟨hcs, -⟩
  rcases h c hcs with ⟨h1, h2, h5⟩
  exact ⟨h1, h2, by simpa using h3, by simpa using h4, h5⟩

theorem filt4_append (a b : CStr) : filt4 (a ++ b) = filt4 a ++ filt4 b := by
  simp [filt4, List.filter_append]

theorem strip_of_fullClean (s : CStr) (h : ∀ c ∈ s, fullCleanChar c) :
    stripDecorations s = s := by
  have hdot : '.' ∉ s := fun hm => (h _ hm).2.2.2.2 rfl
  rw [strip_as_filt4 s hdot]
  unfold filt4
  have h1 : s.filter (fun x => x != '?') = s :=
    List.filter_eq_self.mpr (fun a ha => by simpa using (h a ha).1)
  have h2 : s.filter (fun x => x != '!') = s :=
    List.filter_eq_self.mpr (fun a ha => by simpa using (h a ha).2.1)
  have h3 : s.filter (fun x => x != '+') = s :=
    List.filter_eq_self.mpr (fun a ha => by simpa using (h a ha).2.2.1)
  have h4 : s.filter (fun x => x != '#') = s :=
    List.filter_eq_self.mpr (fun a ha => by simpa using (h a ha).2.2.2.1)
  rw [h1, h2, h3, h4]

theorem decor_filt4 {s t : CStr} (hd : Decor s t)
    (hs : ∀ c ∈ s, fullCleanChar c) : DecorEP s (filt4 t) := by
  induction hd with
  | nil => exact DecorEP.nil
  | chr c hd ih =>
    rename_i s' t'
    have hc := hs c (List.mem_cons_self _ _)
    have htl : ∀ c ∈ s', fullCleanChar c := fun x hx => hs x (List.mem_cons_of_mem _ hx)
    have hstep : filt4 (c :: t') = c :: filt4 t' := by
      simp [filt4, List.filter_cons, hc.1, hc.2.1, hc.2.2.1, hc.2.2.2.1]
    rw [hstep]
    exact DecorEP.chr c (ih htl)
  | tok tk htk hd ih =>
    rename_i s' t'
    have ih' := ih hs
    rw [filt4_append]
    simp only [decorTokens, List.mem_cons, List.mem_singleton, List.not_mem_nil,
      or_false] at htk
    rcases htk with rfl | rfl | rfl | rfl | rfl
    · simpa [filt4] using ih'
    · simpa [filt4] using ih'
    · simpa [filt4] using ih'
    · simpa [filt4] using ih'
    · have : filt4 epTok = epTok := by decide
      rw [this]
      exact DecorEP.tok ih'

theorem decorEP_head {s t : CStr} (hd : DecorEP s t)
    (hs : ∀ c ∈ s, fullCleanChar c) : ∀ c, t.head? = some c → c ≠ '.' := by
  cases hd with
  | nil => intro c hc; cases hc
  | chr c' hd =>
    intro c hc
    have h : c' = c := by simpa using hc
    exact h ▸ (hs c' (List.mem_cons_self _ _)).2.2.2.2
  | tok hd =>
    intro c hc
    have : c = 'e' := by simpa [epTok] using hc.symm
    subst this
    decide

theorem decorEP_replace : ∀ {s t : CStr}, DecorEP s t →
    (∀ c ∈ s, fullCleanChar c) → ∀ f, t.length ≤ f → replaceFuel epTok f t = s := by
  intro s t hd
  induction hd with
  | nil => intro _ f _; exact replaceFuel_nil _ f
  | chr c hd ih =>
    rename_i s' t'
    intro hs f hf
    have htl : ∀ x ∈ s', fullCleanChar x := fun x hx => hs x (List.mem_cons_of_mem _ hx)
    match f, hf with
    | f + 1, hf =>
      have hpre : ¬(epTok ≠ [] ∧ epTok.isPrefixOf (c :: t')) := by
        rintro ⟨-, hp⟩
        rcases List.isPrefixOf_iff_prefix.mp hp with ⟨u, hu⟩
        have hhead : t'.head? = some '.' := by
          have : c :: t' = 'e' :: '.' :: 'p' :: '.' :: u := by simpa [epTok] using hu.symm
          cases this
          rfl
        exact decorEP_head hd htl '.' hhead rfl
      rw [replaceFuel_cons, if_neg hpre,
        ih htl f (Nat.le_of_succ_le_succ (by simpa using hf))]
  | tok hd ih =>
    rename_i s' t'
    intro hs f hf
    match f, hf with
    | 0, hf => simp [epTok] at hf
    | f + 1, hf =>
      have hpre : epTok ≠ [] ∧ epTok.isPrefixOf ('e' :: ('.' :: 'p' :: '.' :: t')) :=
        ⟨by decide, isPrefixOf_append_self epTok t'⟩
      have hshape : epTok ++ t' = 'e' :: ('.' :: 'p' :: '.' :: t') := rfl
      have hlen : t'.length ≤ f := by
        have : (epTok ++ t').length ≤ f + 1 := hf
        simp [epTok] at this
        omega
      rw [hshape, replaceFuel_cons, if_pos hpre]
      show replaceFuel epTok f (('e' :: '.' :: 'p' :: '.' :: t').drop epTok.length) = s'
      have hdrop : ('e' :: '.' :: 'p' :: '.' :: t').drop epTok.length = t' := rfl
      rw [hdrop]
      exact ih hs f hlen


theorem decor_strip {s t : CStr} (hs : ∀ c ∈ s, fullCleanChar c)
    (hd : Decor s t) : stripDecorations t = s := by
  rw [stripDecorations_as_replace]
  exact decorEP_replace (decor_filt4 hd hs) hs (filt4 t).length (Nat.le_refl _)

theorem encClean_fileCharOf : ∀ sq : Square, encCleanChar (fileCharOf sq) := by decide

theorem encClean_rankCharOf : ∀ sq : Square, encCleanChar (rankCharOf sq) := by decide

theorem fileCharOf_ne_rankCharOf : ∀ sq : Square, fileCharOf sq ≠ rankCharOf sq := by
  decide

theorem squareFromStr_squareToStr : ∀ sq : Square,
    squareFromStr (squareToStr sq) = some sq := by decide

theorem mem_getCheckChar {pos : Position} {m : Move} {c : Char} :
    c ∈ getCheckChar pos m → c = '#' ∨ c = '+' := by
  unfold getCheckChar
  split
  · intro h; cases h
  · split
    · intro h
      simp only [List.mem_singleton] at h
      exact Or.inl h
    · intro h
      simp only [List.mem_singleton] at h
      exact Or.inr h

theorem mem_charFromPieceType {p : PieceType} {c : Char} :
    c ∈ charFromPieceType p →
      c = 'K' ∨ c = 'Q' ∨ c = 'R' ∨ c = 'B' ∨ c = 'N' := by
  cases p <;> simp [charFromPieceType] <;> tauto

theorem mem_formS1 {pos : Position} {m : Move} {c : Char} :
    c ∈ formS1 pos m → c = fileCharOf m.S1 ∨ c = rankCharOf m.S1 := by
  intro h
  simp only [formS1] at h
  split at h
  · cases h
  · rcases List.mem_append.mp h with h' | h' <;> split at h' <;>
      simp only [List.mem_singleton, List.not_mem_nil] at h' <;> tauto

theorem mem_charForPromo {p : PieceType} {c : Char} :
    c ∈ charForPromo p → c = '=' ∨ c ∈ charFromPieceType p := by
  simp only [charForPromo]
  split
  · intro h
    rcases List.mem_cons.mp h with h' | h' <;> tauto
  · intro h
    exact Or.inr h

theorem encClean_SAN (pos : Position) (m : Move) :
    ∀ c ∈ SAN.encode pos m, encCleanChar c := by
  intro c hc
  have hcheck : ∀ c ∈ getCheckChar pos m, encCleanChar c := by
    intro x hx
    rcases mem_getCheckChar hx with rfl | rfl <;> decide
  simp only [SAN.encode] at hc
  split at hc
  · rcases List.mem_append.mp hc with h | h
    · have : str "O-O" = ['O', '-', 'O'] := rfl
      rw [this] at h
      fin_cases h <;> decide
    · exact hcheck c h
  · split at hc
    · rcases List.mem_append.mp hc with h | h
      · have : str "O-O-O" = ['O', '-', 'O', '-', 'O'] := rfl
        rw [this] at h
        fin_cases h <;> decide
      · exact hcheck c h
    · rcases List.mem_append.mp hc with h | h
      swap
      · exact hcheck c h
      rcases List.mem_append.mp h with h | h
      swap
      · rcases mem_charForPromo h with rfl | h'
        · decide
        · rcases mem_charFromPieceType h' with rfl | rfl | rfl | rfl | rfl <;> decide
      rcases List.mem_append.mp h with h | h
      swap
      · simp only [squareToStr, List.mem_cons, List.mem_singleton,
          List.not_mem_nil, or_false] at h
        rcases h with rfl | rfl
        · exact encClean_fileCharOf _
        · exact encClean_rankCharOf _
      rcases List.mem_append.mp h with h | h
      swap
      · split at h
        · split at h
          · simp only [List.mem_cons, List.mem_singleton, List.not_mem_nil,
              or_false] at h
            rcases h with rfl | rfl
            · exact encClean_fileCharOf _
            · decide
          · simp only [List.mem_singleton] at h
            subst h; decide
        · cases h
      rcases List.mem_append.mp h with h | h
      · rcases mem_charFromPieceType h with rfl | rfl | rfl | rfl | rfl <;> decide
      · rcases mem_formS1 h with rfl | rfl
        · exact encClean_fileCharOf _
        · exact encClean_rankCharOf _

theorem encClean_LAN (pos : Position) (m : Move) :
    ∀ c ∈ LAN.encode pos m, encCleanChar c := by
  intro c hc
  have hcheck : ∀ c ∈ getCheckChar pos m, encCleanChar c := by
    intro x hx
    rcases mem_getCheckChar hx with rfl | rfl <;> decide
  simp only [LAN.encode] at hc
  split at hc
  · rcases List.mem_append.mp hc with h | h
    · have : str "O-O" = ['O', '-', 'O'] := rfl
      rw [this] at h
      fin_cases h <;> decide
    · exact hcheck c h
  · split at hc
    · rcases List.mem_append.mp hc with h | h
      · have : str "O-O-O" = ['O', '-', 'O', '-', 'O'] := rfl
        rw [this] at h
        fin_cases h <;> decide
      · exact hcheck c h
    · rcases List.mem_append.mp hc with h | h
      swap
      · exact hcheck c h
      rcases List.mem_append.mp h with h | h
      swap
      · rcases mem_charForPromo h with rfl | h'
        · decide
        · rcases mem_charFromPieceType h' with rfl | rfl | rfl | rfl | rfl <;> decide
      rcases List.mem_append.mp h with h | h
      swap
      · simp only [squareToStr, List.mem_cons, List.mem_singleton,
          List.not_mem_nil, or_false] at h
        rcases h with rfl | rfl
        · exact encClean_fileCharOf _
        · exact encClean_rankCharOf _
      rcases List.mem_append.mp h with h | h
      swap
      · split at h
        · split at h
          · simp only [List.mem_cons, List.mem_singleton, List.not_mem_nil,
              or_false] at h
            rcases h with rfl | rfl
            · exact encClean_fileCharOf _
            · decide
          · simp only [List.mem_singleton] at h
            subst h; decide
        · cases h
      rcases List.mem_append.mp h with h | h
      · rcases mem_charFromPieceType h with rfl | rfl | rfl | rfl | rfl <;> decide
      · simp only [squareToStr, List.mem_cons, List.mem_singleton,
          List.not_mem_nil, or_false] at h
        rcases h with rfl | rfl
        · exact encClean_fileCharOf _
        · exact encClean_rankCharOf _

theorem decodeLoop_eq_find (pos : Position) (encFn : Position → Move → CStr)
    (target : CStr) : ∀ l : List Move,
      decodeLoop pos encFn target l =
        l.find? (fun m => stripDecorations (encFn pos m) == target)
  | [] => rfl
  | m :: tl => by
    by_cases h : stripDecorations (encFn pos m) = target
    · simp [decodeLoop, List.find?_cons, h]
    · simp [decodeLoop, List.find?_cons, h, decodeLoop_eq_find pos encFn target tl]

theorem find_first {p : Move → Bool} :
    ∀ {l : List Move} {m : Move}, m ∈ l → p m = true →
      (∀ x ∈ l, p x = true → x = m) → l.find? p = some m := by
  intro l
  induction l with
  | nil => intro m h; cases h
  | cons a tl ih =>
    intro m hm hp huniq
    by_cases ha : p a = true
    · have heq : a = m := huniq a (List.mem_cons_self _ _) ha
      subst heq
      simp [List.find?_cons, ha]
    · have hm' : m ∈ tl := by
        rcases List.mem_cons.mp hm with rfl | h
        · exact absurd hp ha
        · exact h
      have hfa : p a = false := Bool.eq_false_iff.mpr ha
      simp only [List.find?_cons, hfa]
      exact ih hm' hp (fun x hx => huniq x (List.mem_cons_of_mem _ hx))

theorem undeco_SAN_clean (pos : Position) (m : Move) :
    ∀ c ∈ stripDecorations (SAN.encode pos m), fullCleanChar c := by
  have hdot : '.' ∉ SAN.encode pos m :=
    fun hm => (encClean_SAN pos m '.' hm).2.2 rfl
  rw [strip_as_filt4 _ hdot]
  exact filt4_clean _ (encClean_SAN pos m)

theorem undeco_LAN_clean (pos : Position) (m : Move) :
    ∀ c ∈ stripDecorations (LAN.encode pos m), fullCleanChar c := by
  have hdot : '.' ∉ LAN.encode pos m :=
    fun hm => (encClean_LAN pos m '.' hm).2.2 rfl
  rw [strip_as_filt4 _ hdot]
  exact filt4_clean _ (encClean_LAN pos m)

theorem SAN_decode_strip (pos : Position) (s u : CStr)
    (h : stripDecorations s = stripDecorations u) :
    SAN.decode pos s = SAN.decode pos u := by
  simp only [SAN.decode, h]

theorem LAN_decode_strip (pos : Position) (s u : CStr)
    (h : stripDecorations s = stripDecorations u) :
    LAN.decode pos s = LAN.decode pos u := by
  simp only [LAN.decode, h]

/-- C10: UCI encode is a function of the move alone: for every move and any
two (nilable) positions, the encodings agree, because the position argument
is never read. -/
theorem c10_uci_encode_ignores_position (p1 p2 : Option Position) (m : Move) :
    UCI.encode p1 m = UCI.encode p2 m := rfl

/-- C7: the check/mate suffix used by both SAN and Long Algebraic encode is
empty when the move is not tagged Check, "#" when the position after the
move has status Checkmate, and "+" in every other case; both encoders emit
their output as some body followed by exactly this suffix. -/
theorem c7_check_suffix (pos : Position) (m : Move) :
    (m.hasTag MoveTag.Check = false → getCheckChar pos m = []) ∧
    (m.hasTag MoveTag.Check = true → pos.statusAfter m = GameStatus.Checkmate →
      getCheckChar pos m = ['#']) ∧
    (m.hasTag MoveTag.Check = true → pos.statusAfter m ≠ GameStatus.Checkmate →
      getCheckChar pos m = ['+']) ∧
    (∃ b : CStr, SAN.encode pos m = b ++ getCheckChar pos m) ∧
    (∃ b : CStr, LAN.encode pos m = b ++ getCheckChar pos m) := by
  refine ⟨?_, ?_, ?_, ?_, ?_⟩
  · intro h; simp [getCheckChar, h]
  · intro h1 h2; simp [getCheckChar, h1, h2]
  · intro h1 h2; simp [getCheckChar, h1, h2]
  · simp only [SAN.encode]
    split
    · exact ⟨str "O-O", rfl⟩
    · split
      · exact ⟨str "O-O-O", rfl⟩
      · exact ⟨_, rfl⟩
  · simp only [LAN.encode]
    split
    · exact ⟨str "O-O", rfl⟩
    · split
      · exact ⟨str "O-O-O", rfl⟩
      · exact ⟨_, rfl⟩

/-- C7 witness: the rook check move gets suffix "#" when the resulting
status is Checkmate and "+" when it is only Check. -/
theorem c7_check_suffix_witness :
    getCheckChar matePos rookCheckMove = ['#'] ∧
    getCheckChar rookCheckPos rookCheckMove = ['+'] :=
  ⟨(c7_check_suffix matePos rookCheckMove).2.1 rfl rfl,
   (c7_check_suffix rookCheckPos rookCheckMove).2.2.1 rfl (by decide)⟩

/-- C6 (amended): a move tagged KingSideCastle encodes, in SAN and Long
Algebraic alike, exactly as "O-O" plus the check/mate suffix; a move tagged
QueenSideCastle and not also KingSideCastle encodes exactly as "O-O-O" plus
the suffix. -/
theorem c6_castle_encode_amended (pos : Position) (m : Move) :
    (m.hasTag MoveTag.KingSideCastle = true →
      SAN.encode pos m = str "O-O" ++ getCheckChar pos m ∧
      LAN.encode pos m = str "O-O" ++ getCheckChar pos m) ∧
    (m.hasTag MoveTag.QueenSideCastle = true →
      m.hasTag MoveTag.KingSideCastle = false →
      SAN.encode pos m = str "O-O-O" ++ getCheckChar pos m ∧
      LAN.encode pos m = str "O-O-O" ++ getCheckChar pos m) := by
  constructor
  · intro h
    constructor <;> simp [SAN.encode, LAN.encode, h]
  · intro h1 h2
    constructor <;> simp [SAN.encode, LAN.encode, h1, h2]

/-- C6 counterexample: a move carrying both castle tags is tagged
QueenSideCastle, yet SAN and Long Algebraic encode render it as "O-O"
(the KingSideCastle branch wins), not as "O-O-O" plus the suffix. -/
theorem c6_counterexample :
    doubleCastleMove.hasTag MoveTag.QueenSideCastle = true ∧
    SAN.encode pawnPos doubleCastleMove = str "O-O" ∧
    LAN.encode pawnPos doubleCastleMove = str "O-O" ∧
    SAN.encode pawnPos doubleCastleMove ≠
      str "O-O-O" ++ getCheckChar pawnPos doubleCastleMove := by
  refine ⟨rfl, rfl, rfl, ?_⟩
  decide

/-- C6 witness: a king-side castle encodes as "O-O" plus suffix and a
queen-side castle as "O-O-O" plus suffix. -/
theorem c6_castle_encode_amended_witness :
    SAN.encode pawnPos kscMove = str "O-O" ++ getCheckChar pawnPos kscMove ∧
    SAN.encode pawnPos qscMove = str "O-O-O" ++ getCheckChar pawnPos qscMove :=
  ⟨((c6_castle_encode_amended pawnPos kscMove).1 rfl).1,
   ((c6_castle_encode_amended pawnPos qscMove).2 rfl rfl).1⟩

/-- C3: SAN decode and Long Algebraic decode return exactly the first legal
move (in the position's enumeration order) whose stripped encoding equals
the stripped input, an error when none matches, and every successfully
decoded move is a member of the legal-move list. -/
theorem c3_decode_first_match (pos : Position) (s : CStr) :
    (∀ m : Move, SAN.decode pos s = Except.ok m ↔
      pos.validMoves.find?
        (fun m' => stripDecorations (SAN.encode pos m') == stripDecorations s) =
        some m) ∧
    (∀ m : Move, SAN.decode pos s = Except.ok m → m ∈ pos.validMoves) ∧
    (isOkE (SAN.decode pos s) = false ↔
      pos.validMoves.find?
        (fun m' => stripDecorations (SAN.encode pos m') == stripDecorations s) =
        none) ∧
    (∀ m : Move, LAN.decode pos s = Except.ok m ↔
      pos.validMoves.find?
        (fun m' => stripDecorations (LAN.encode pos m') == stripDecorations s) =
        some m) ∧
    (∀ m : Move, LAN.decode pos s = Except.ok m → m ∈ pos.validMoves) ∧
    (isOkE (LAN.decode pos s) = false ↔
      pos.validMoves.find?
        (fun m' => stripDecorations (LAN.encode pos m') == stripDecorations s) =
        none) := by
  have hS := decodeLoop_eq_find pos SAN.encode (stripDecorations s) pos.validMoves
  have hL := decodeLoop_eq_find pos LAN.encode (stripDecorations s) pos.validMoves
  refine ⟨?_, ?_, ?_, ?_, ?_, ?_⟩
  · intro m
    simp only [SAN.decode, hS]
    cases hfind : pos.validMoves.find?
        (fun m' => stripDecorations (SAN.encode pos m') == stripDecorations s) <;>
      simp
  · intro m h
    simp only [SAN.decode, hS] at h
    cases hfind : pos.validMoves.find?
        (fun m' => stripDecorations (SAN.encode pos m') == stripDecorations s) with
    | none => rw [hfind] at h; cases h
    | some m0 =>
      rw [hfind] at h
      cases h
      exact List.mem_of_find?_eq_some hfind
  · simp only [SAN.decode, hS]
    cases hfind : pos.validMoves.find?
        (fun m' => stripDecorations (SAN.encode pos m') == stripDecorations s) <;>
      simp [isOkE]
  · intro m
    simp only [LAN.decode, hL]
    cases hfind : pos.validMoves.find?
        (fun m' => stripDecorations (LAN.encode pos m') == stripDecorations s) <;>
      simp
  · intro m h
    simp only [LAN.decode, hL] at h
    cases hfind : pos.validMoves.find?
        (fun m' => stripDecorations (LAN.encode pos m') == stripDecorations s) with
    | none => rw [hfind] at h; cases h
    | some m0 =>
      rw [hfind] at h
      cases h
      exact List.mem_of_find?_eq_some hfind
  · simp only [LAN.decode, hL]
    cases hfind : pos.validMoves.find?
        (fun m' => stripDecorations (LAN.encode pos m') == stripDecorations s) <;>
      simp [isOkE]

/-- C3 witness: decoding "e4" in the pawn position succeeds with the pawn
move, which is a member of the legal-move list. -/
theorem c3_decode_first_match_witness : pawnMove ∈ pawnPos.validMoves :=
  (c3_decode_first_match pawnPos (str "e4")).2.1 pawnMove rfl

/-- C8: decoding a string obtained from the undecorated canonical SAN (or
Long Algebraic) encoding of a legal move by inserting decoration tokens
"?", "!", "+", "#", "e.p." at arbitrary positions yields the same result
as decoding the undecorated text. -/
theorem c8_decoration_tolerance (pos : Position) (m : Move) (t : CStr)
    (hm : m ∈ pos.validMoves) :
    (Decor (stripDecorations (SAN.encode pos m)) t →
      SAN.decode pos t = SAN.decode pos (stripDecorations (SAN.encode pos m))) ∧
    (Decor (stripDecorations (LAN.encode pos m)) t →
      LAN.decode pos t = LAN.decode pos (stripDecorations (LAN.encode pos m))) := by
  constructor
  · intro hd
    apply SAN_decode_strip
    rw [decor_strip (undeco_SAN_clean pos m) hd,
      strip_of_fullClean _ (undeco_SAN_clean pos m)]
  · intro hd
    apply LAN_decode_strip
    rw [decor_strip (undeco_LAN_clean pos m) hd,
      strip_of_fullClean _ (undeco_LAN_clean pos m)]

/-- C8 witness: "!e4+" decodes like the undecorated "e4", and "e2e4e.p."
decodes like the undecorated "e2e4", in the pawn position. -/
theorem c8_decoration_tolerance_witness :
    SAN.decode pawnPos (str "!e4+") =
      SAN.decode pawnPos (stripDecorations (SAN.encode pawnPos pawnMove)) ∧
    LAN.decode pawnPos (str "e2e4e.p.") =
      LAN.decode pawnPos (stripDecorations (LAN.encode pawnPos pawnMove)) := by
  constructor
  · exact (c8_decoration_tolerance pawnPos pawnMove (str "!e4+") (by decide)).1
      (Decor.tok ['!'] (by decide)
        (Decor.chr 'e' (Decor.chr '4' (Decor.tok ['+'] (by decide) Decor.nil))))
  · exact (c8_decoration_tolerance pawnPos pawnMove (str "e2e4e.p.") (by decide)).2
      (Decor.chr 'e' (Decor.chr '2' (Decor.chr 'e' (Decor.chr '4'
        (Decor.tok epTok (by decide) Decor.nil)))))

theorem formS1_foldl (pos : Position) (m : Move) :
    ∀ (l : List Move) (acc : Bool × Bool × Bool),
      l.foldl
        (fun (acc : Bool × Bool × Bool) mv =>
          if mv.S1 ≠ m.S1 ∧ mv.S2 = m.S2 ∧ pos.board m.S1 = pos.board mv.S1 then
            (true,
              acc.2.1 || decide (rankIdx mv.S1 = rankIdx m.S1),
              acc.2.2 || decide (fileIdx mv.S1 = fileIdx m.S1))
          else acc) acc =
      (acc.1 || l.any (fun mv =>
          decide (mv.S1 ≠ m.S1 ∧ mv.S2 = m.S2 ∧ pos.board m.S1 = pos.board mv.S1)),
       acc.2.1 || l.any (fun mv =>
          decide (mv.S1 ≠ m.S1 ∧ mv.S2 = m.S2 ∧ pos.board m.S1 = pos.board mv.S1)
            && decide (rankIdx mv.S1 = rankIdx m.S1)),
       acc.2.2 || l.any (fun mv =>
          decide (mv.S1 ≠ m.S1 ∧ mv.S2 = m.S2 ∧ pos.board m.S1 = pos.board mv.S1)
            && decide (fileIdx mv.S1 = fileIdx m.S1)))
  | [], acc => by simp
  | a :: tl, acc => by
    by_cases hca : a.S1 ≠ m.S1 ∧ a.S2 = m.S2 ∧ pos.board m.S1 = pos.board a.S1
    · simp only [List.foldl_cons, List.any_cons, if_pos hca, decide_eq_true hca,
        formS1_foldl pos m tl, Bool.true_and]
      refine congrArg₂ _ ?_ (congrArg₂ _ ?_ ?_) <;>
        simp [Bool.or_assoc]
    · have hd : decide (a.S1 ≠ m.S1 ∧ a.S2 = m.S2 ∧ pos.board m.S1 = pos.board a.S1)
          = false := decide_eq_false hca
      simp only [List.foldl_cons, List.any_cons, if_neg hca, hd,
        formS1_foldl pos m tl, Bool.false_and, Bool.false_or]

theorem formS1_char (pos : Position) (m : Move)
    (hp : (pos.board m.S1).ptype ≠ Pawn) :
    formS1 pos m =
      (if (pos.validMoves.any (fun mv =>
            decide (mv.S1 ≠ m.S1 ∧ mv.S2 = m.S2 ∧ pos.board m.S1 = pos.board mv.S1)
              && decide (rankIdx mv.S1 = rankIdx m.S1)))
          || (!(pos.validMoves.any (fun mv =>
            decide (mv.S1 ≠ m.S1 ∧ mv.S2 = m.S2 ∧ pos.board m.S1 = pos.board mv.S1)
              && decide (fileIdx mv.S1 = fileIdx m.S1)))
            && pos.validMoves.any (fun mv =>
            decide (mv.S1 ≠ m.S1 ∧ mv.S2 = m.S2 ∧ pos.board m.S1 = pos.board mv.S1)))
        then [fileCharOf m.S1] else [])
      ++ (if pos.validMoves.any (fun mv =>
            decide (mv.S1 ≠ m.S1 ∧ mv.S2 = m.S2 ∧ pos.board m.S1 = pos.board mv.S1)
              && decide (fileIdx mv.S1 = fileIdx m.S1))
          then [rankCharOf m.S1] else []) := by
  simp only [formS1, if_neg hp, formS1_foldl pos m pos.validMoves (false, false, false),
    Bool.false_or]

/-- C2: for a non-pawn move, a competing legal move (same piece type and
color, same destination, different origin) forces the rank qualifier when
it shares the origin file and the file qualifier when it shares the origin
rank; the qualifier contains the origin file iff fileReq holds or some
competitor exists while rankReq fails, contains the origin rank iff
rankReq holds, is empty without competitors, and is exactly the file
qualifier when all competitors sit on different files. -/
theorem c2_disambiguation (pos : Position) (m : Move)
    (hp : (pos.board m.S1).ptype ≠ Pawn) :
    ((fileCharOf m.S1 ∈ formS1 pos m) ↔
      ((∃ mv ∈ pos.validMoves,
          (mv.S1 ≠ m.S1 ∧ mv.S2 = m.S2 ∧ pos.board m.S1 = pos.board mv.S1) ∧
          rankIdx mv.S1 = rankIdx m.S1) ∨
       ((∃ mv ∈ pos.validMoves,
          mv.S1 ≠ m.S1 ∧ mv.S2 = m.S2 ∧ pos.board m.S1 = pos.board mv.S1) ∧
        ¬ (∃ mv ∈ pos.validMoves,
          (mv.S1 ≠ m.S1 ∧ mv.S2 = m.S2 ∧ pos.board m.S1 = pos.board mv.S1) ∧
          fileIdx mv.S1 = fileIdx m.S1)))) ∧
    ((rankCharOf m.S1 ∈ formS1 pos m) ↔
      (∃ mv ∈ pos.validMoves,
        (mv.S1 ≠ m.S1 ∧ mv.S2 = m.S2 ∧ pos.board m.S1 = pos.board mv.S1) ∧
        fileIdx mv.S1 = fileIdx m.S1)) ∧
    ((¬ ∃ mv ∈ pos.validMoves,
        mv.S1 ≠ m.S1 ∧ mv.S2 = m.S2 ∧ pos.board m.S1 = pos.board mv.S1) →
      formS1 pos m = []) ∧
    (((∃ mv ∈ pos.validMoves,
        mv.S1 ≠ m.S1 ∧ mv.S2 = m.S2 ∧ pos.board m.S1 = pos.board mv.S1) ∧
      (∀ mv ∈ pos.validMoves,
        (mv.S1 ≠ m.S1 ∧ mv.S2 = m.S2 ∧ pos.board m.S1 = pos.board mv.S1) →
        fileIdx mv.S1 ≠ fileIdx m.S1)) →
      formS1 pos m = [fileCharOf m.S1]) := by
  have hchar := formS1_char pos m hp
  have hfr := fileCharOf_ne_rankCharOf m.S1
  set A := pos.validMoves.any (fun mv =>
      decide (mv.S1 ≠ m.S1 ∧ mv.S2 = m.S2 ∧ pos.board m.S1 = pos.board mv.S1))
    with hAdef
  set F := pos.validMoves.any (fun mv =>
      decide (mv.S1 ≠ m.S1 ∧ mv.S2 = m.S2 ∧ pos.board m.S1 = pos.board mv.S1)
        && decide (rankIdx mv.S1 = rankIdx m.S1)) with hFdef
  set R := pos.validMoves.any (fun mv =>
      decide (mv.S1 ≠ m.S1 ∧ mv.S2 = m.S2 ∧ pos.board m.S1 = pos.board mv.S1)
        && decide (fileIdx mv.S1 = fileIdx m.S1)) with hRdef
  have hAiff : (A = true) ↔
      (∃ mv ∈ pos.validMoves,
        mv.S1 ≠ m.S1 ∧ mv.S2 = m.S2 ∧ pos.board m.S1 = pos.board mv.S1) := by
    rw [hAdef]; simp [List.any_eq_true]
  have hFiff : (F = true) ↔
      (∃ mv ∈ pos.validMoves,
        (mv.S1 ≠ m.S1 ∧ mv.S2 = m.S2 ∧ pos.board m.S1 = pos.board mv.S1) ∧
        rankIdx mv.S1 = rankIdx m.S1) := by
    rw [hFdef]; simp [List.any_eq_true]
  have hRiff : (R = true) ↔
      (∃ mv ∈ pos.validMoves,
        (mv.S1 ≠ m.S1 ∧ mv.S2 = m.S2 ∧ pos.board m.S1 = pos.board mv.S1) ∧
        fileIdx mv.S1 = fileIdx m.S1) := by
    rw [hRdef]; simp [List.any_eq_true]
  have hFA : F = true → A = true := by
    intro h
    rw [hFdef] at h
    rcases List.any_eq_true.mp h with ⟨mv, hmem, hb⟩
    rw [hAdef]
    exact List.any_eq_true.mpr ⟨mv, hmem, (Bool.and_eq_true_iff.mp hb).1⟩
  have hRA : R = true → A = true := by
    intro h
    rw [hRdef] at h
    rcases List.any_eq_true.mp h with ⟨mv, hmem, hb⟩
    rw [hAdef]
    exact List.any_eq_true.mpr ⟨mv, hmem, (Bool.and_eq_true_iff.mp hb).1⟩
  rw [← hAiff, ← hFiff, ← hRiff]
  refine ⟨?_, ?_, ?_, ?_⟩
  · rw [hchar]
    cases hFb : F <;> cases hRb : R <;> cases hAb : A <;>
      simp [hfr]
  · rw [hchar]
    cases hFb : F <;> cases hRb : R <;> cases hAb : A <;>
      simp [Ne.symm hfr]
  · intro hA
    have hAb : A = false := Bool.eq_false_iff.mpr hA
    have hFb : F = false := by
      cases hFb : F
      · rfl
      · exact absurd (hFA hFb) (by simp [hAb])
    have hRb : R = false := by
      cases hRb : R
      · rfl
      · exact absurd (hRA hRb) (by simp [hAb])
    rw [hchar, hAb, hFb, hRb]
    simp
  · rintro ⟨hAb, hall⟩
    have hRb : R = false := by
      cases hRb : R
      · rfl
      · rw [hRdef] at hRb
        rcases List.any_eq_true.mp hRb with ⟨mv, hmem, hb⟩
        rcases Bool.and_eq_true_iff.mp hb with ⟨h1, h2⟩
        exact absurd (of_decide_eq_true h2) (hall mv hmem (of_decide_eq_true h1))
    rw [hchar, hAb, hRb]
    simp

/-- C2 witness: with white knights on b1 and f1 both able to reach d2, the
qualifier for the b1 knight is exactly its origin file. -/
theorem c2_disambiguation_witness :
    formS1 knightPos knightMoveB = [fileCharOf knightMoveB.S1] :=
  (c2_disambiguation knightPos knightMoveB (by decide)).2.2.2
    ⟨⟨knightMoveF, by decide, by decide⟩, by decide⟩

theorem pieceTypeFromChar_eq_none_iff (c : CStr) :
    pieceTypeFromChar c = NoPieceType ↔
      (c ≠ ['q'] ∧ c ≠ ['r'] ∧ c ≠ ['b'] ∧ c ≠ ['n']) := by
  unfold pieceTypeFromChar
  split_ifs with h1 h2 h3 h4 <;> simp_all

theorem addTag_S1 (m : Move) (t : MoveTag) : (m.addTag t).S1 = m.S1 := by
  cases t <;> rfl

theorem addTag_S2 (m : Move) (t : MoveTag) : (m.addTag t).S2 = m.S2 := by
  cases t <;> rfl

theorem addTag_promo (m : Move) (t : MoveTag) : (m.addTag t).promo = m.promo := by
  cases t <;> rfl

theorem inferTags_fields (p : Position) (m0 : Move) :
    (UCI.inferTags p m0).S1 = m0.S1 ∧ (UCI.inferTags p m0).S2 = m0.S2 ∧
      (UCI.inferTags p m0).promo = m0.promo := by
  simp only [UCI.inferTags]
  split_ifs <;> simp [addTag_S1, addTag_S2, addTag_promo]

/-- C4: UCI decode fails exactly when the length is neither 4 nor 5, or a
coordinate pair is not a known square text, or a fifth character is not one
of the lowercase letters q, r, b, n; otherwise the returned move carries
the decoded origin, destination and promotion piece, with the letters
mapping to Queen, Rook, Bishop and Knight. -/
theorem c4_uci_decode_errors (pos : Option Position) (s : CStr) :
    (isOkE (UCI.decode pos s) = false ↔
      (s.length ≠ 4 ∧ s.length ≠ 5) ∨
      squareFromStr (s.take 2) = none ∨
      squareFromStr ((s.drop 2).take 2) = none ∨
      (s.length = 5 ∧ s.drop 4 ∉ [['q'], ['r'], ['b'], ['n']])) ∧
    (∀ m : Move, UCI.decode pos s = Except.ok m →
      squareFromStr (s.take 2) = some m.S1 ∧
      squareFromStr ((s.drop 2).take 2) = some m.S2 ∧
      (s.length = 4 → m.promo = NoPieceType) ∧
      (s.length = 5 → m.promo = pieceTypeFromChar (s.drop 4))) ∧
    (pieceTypeFromChar ['q'] = Queen ∧ pieceTypeFromChar ['r'] = Rook ∧
      pieceTypeFromChar ['b'] = Bishop ∧ pieceTypeFromChar ['n'] = Knight) := by
  have hmemiff : ∀ c : CStr,
      c ∉ [['q'], ['r'], ['b'], ['n']] ↔ pieceTypeFromChar c = NoPieceType := by
    intro c
    rw [pieceTypeFromChar_eq_none_iff]
    simp
  refine ⟨?_, ?_, by decide⟩
  · by_cases hlen : s.length < 4 ∨ s.length > 5
    · have hdec : UCI.decode pos s = Except.error (UCI.errMsg pos s) := by
        simp only [UCI.decode]
        rw [if_pos hlen]
      rw [hdec]
      exact ⟨fun _ => Or.inl ⟨by omega, by omega⟩, fun _ => rfl⟩
    · cases hsq1 : squareFromStr (s.take 2) with
      | none =>
        have hdec : UCI.decode pos s = Except.error (UCI.errMsg pos s) := by
          simp only [UCI.decode]
          rw [if_neg hlen, hsq1]
        rw [hdec]
        exact ⟨fun _ => Or.inr (Or.inl rfl), fun _ => rfl⟩
      | some S1 =>
        cases hsq2 : squareFromStr ((s.drop 2).take 2) with
        | none =>
          have hdec : UCI.decode pos s = Except.error (UCI.errMsg pos s) := by
            simp only [UCI.decode]
            rw [if_neg hlen, hsq1, hsq2]
          rw [hdec]
          exact ⟨fun _ => Or.inr (Or.inr (Or.inl rfl)), fun _ => rfl⟩
        | some S2 =>
          by_cases h5 : s.length = 5
          · by_cases hq : pieceTypeFromChar (s.drop 4) = NoPieceType
            · have hdec : UCI.decode pos s = Except.error (UCI.errMsg pos s) := by
                simp only [UCI.decode]
                rw [if_neg hlen, hsq1, hsq2]
                simp [h5, hq]
              rw [hdec]
              exact ⟨fun _ => Or.inr (Or.inr (Or.inr ⟨h5, (hmemiff _).mpr hq⟩)),
                fun _ => rfl⟩
            · have hok : isOkE (UCI.decode pos s) = true := by
                simp only [UCI.decode]
                rw [if_neg hlen, hsq1, hsq2]
                cases pos <;> simp [isOkE, h5, hq]
              rw [hok]
              constructor
              · intro h; simp at h
              · rintro (⟨h4, h5'⟩ | hs1 | hs2 | ⟨-, hmem⟩)
                · exact absurd h5 h5'
                · simp at hs1
                · simp at hs2
                · exact absurd ((hmemiff _).mp hmem) hq
          · have h4 : s.length = 4 := by omega
            have hok : isOkE (UCI.decode pos s) = true := by
              simp only [UCI.decode]
              rw [if_neg hlen, hsq1, hsq2]
              cases pos <;> simp [isOkE, h5]
            rw [hok]
            constructor
            · intro h; simp at h
            · rintro (⟨h4', h5'⟩ | hs1 | hs2 | ⟨h5', -⟩)
              · exact absurd h4 h4'
              · simp at hs1
              · simp at hs2
              · exact absurd h5' h5
  · intro m hm
    simp only [UCI.decode] at hm
    split at hm
    · exact Except.noConfusion hm
    · split at hm
      · exact Except.noConfusion hm
      · rename_i S1 hsq1
        split at hm
        · exact Except.noConfusion hm
        · rename_i S2 hsq2
          split at hm
          · rename_i h5
            split at hm
            · exact Except.noConfusion hm
            · cases pos with
              | none =>
                injection hm with hinj
                subst hinj
                exact ⟨hsq1, hsq2, fun h4 => by omega, fun _ => rfl⟩
              | some p =>
                injection hm with hinj
                subst hinj
                rcases inferTags_fields p
                    (Move.bare S1 S2 (pieceTypeFromChar (s.drop 4))) with ⟨f1, f2, f3⟩
                exact ⟨by rw [f1]; exact hsq1, by rw [f2]; exact hsq2,
                  fun h4 => by omega, fun _ => by rw [f3]; rfl⟩
          · rename_i h5
            split at hm
            · exact Except.noConfusion hm
            · cases pos with
              | none =>
                injection hm with hinj
                subst hinj
                exact ⟨hsq1, hsq2, fun _ => rfl, fun h5' => absurd h5' h5⟩
              | some p =>
                injection hm with hinj
                subst hinj
                rcases inferTags_fields p (Move.bare S1 S2 NoPieceType) with ⟨f1, f2, f3⟩
                exact ⟨by rw [f1]; exact hsq1, by rw [f2]; exact hsq2,
                  fun _ => by rw [f3]; rfl, fun h5' => absurd h5' h5⟩

/-- C4 witness: a length-3 input is rejected, and "e2e4" decodes to the
move from e2 to e4 with no promotion. -/
theorem c4_uci_decode_errors_witness :
    isOkE (UCI.decode none (str "e2e")) = false ∧
    squareFromStr ((str "e2e4").take 2) = some (12 : Fin 64) := by
  constructor
  · exact (c4_uci_decode_errors none (str "e2e")).1.mpr (Or.inl (by decide))
  · have h := (c4_uci_decode_errors (some pawnPos) (str "e2e4")).2.1
      (Move.bare (12 : Fin 64) (28 : Fin 64) NoPieceType) rfl
    simpa using h.1

theorem inferTags_bare_tags (p : Position) (a b : Square) (pr : PieceType) :
    ((UCI.inferTags p (Move.bare a b pr)).tagKingSideCastle = true ↔
      (p.board a).ptype = King ∧
        ((a = Sq.E1 ∧ b = Sq.G1) ∨ (a = Sq.E8 ∧ b = Sq.G8))) ∧
    ((UCI.inferTags p (Move.bare a b pr)).tagQueenSideCastle = true ↔
      (p.board a).ptype = King ∧
        ((a = Sq.E1 ∧ b = Sq.C1) ∨ (a = Sq.E8 ∧ b = Sq.C8))) ∧
    ((UCI.inferTags p (Move.bare a b pr)).tagEnPassant = true ↔
      (p.board a).ptype = Pawn ∧ some b = p.enPassantSquare) ∧
    ((UCI.inferTags p (Move.bare a b pr)).tagCapture = true ↔
      ((p.board a).ptype = Pawn ∧ some b = p.enPassantSquare) ∨
        ((p.board b).color ≠ NoColor ∧ (p.board a).color ≠ (p.board b).color)) ∧
    (UCI.inferTags p (Move.bare a b pr)).tagCheck = false := by
  by_cases hK : (p.board a).ptype = King
  · by_cases h1 : (a = Sq.E1 ∧ b = Sq.G1) ∨ (a = Sq.E8 ∧ b = Sq.G8)
    · rcases h1 with ⟨rfl, rfl⟩ | ⟨rfl, rfl⟩ <;>
        · simp only [UCI.inferTags, Move.bare, Move.addTag]
          split_ifs <;>
            simp_all [Sq.E1, Sq.G1, Sq.C1, Sq.E8, Sq.G8, Sq.C8, Fin.mk.injEq]
    · by_cases h2 : (a = Sq.E1 ∧ b = Sq.C1) ∨ (a = Sq.E8 ∧ b = Sq.C8)
      · rcases h2 with ⟨rfl, rfl⟩ | ⟨rfl, rfl⟩ <;>
          · simp only [UCI.inferTags, Move.bare, Move.addTag]
            split_ifs <;>
              simp_all [Sq.E1, Sq.G1, Sq.C1, Sq.E8, Sq.G8, Sq.C8, Fin.mk.injEq]
      · simp only [UCI.inferTags, Move.bare, Move.addTag]
        split_ifs <;>
          simp_all [Sq.E1, Sq.G1, Sq.C1, Sq.E8, Sq.G8, Sq.C8, Fin.mk.injEq]
  · simp only [UCI.inferTags, Move.bare, Move.addTag]
    split_ifs <;>
      simp_all [Sq.E1, Sq.G1, Sq.C1, Sq.E8, Sq.G8, Sq.C8, Fin.mk.injEq]

theorem uci_decode_ok_some (p : Position) (s : CStr) (m : Move)
    (hm : UCI.decode (some p) s = Except.ok m) :
    ∃ a b pr, m = UCI.inferTags p (Move.bare a b pr) := by
  simp only [UCI.decode] at hm
  split at hm
  · exact Except.noConfusion hm
  · split at hm
    · exact Except.noConfusion hm
    · rename_i S1 hsq1
      split at hm
      · exact Except.noConfusion hm
      · rename_i S2 hsq2
        split at hm
        · split at hm
          · exact Except.noConfusion hm
          · injection hm with hinj
            exact ⟨S1, S2, _, hinj.symm⟩
        · split at hm
          · exact Except.noConfusion hm
          · injection hm with hinj
            exact ⟨S1, S2, _, hinj.symm⟩

theorem uci_decode_ok_none (s : CStr) (m : Move)
    (hm : UCI.decode none s = Except.ok m) :
    ∃ a b pr, m = Move.bare a b pr := by
  simp only [UCI.decode] at hm
  split at hm
  · exact Except.noConfusion hm
  · split at hm
    · exact Except.noConfusion hm
    · rename_i S1 hsq1
      split at hm
      · exact Except.noConfusion hm
      · rename_i S2 hsq2
        split at hm
        · split at hm
          · exact Except.noConfusion hm
          · injection hm with hinj
            exact ⟨S1, S2, _, hinj.symm⟩
        · split at hm
          · exact Except.noConfusion hm
          · injection hm with hinj
            exact ⟨S1, S2, _, hinj.symm⟩

/-- C5 (amended): a move returned by UCI decode with a position carries
exactly the inferred tags — castle tags for a king between the castling
squares, en-passant plus capture for a pawn landing on the en-passant
target, and capture whenever the destination is occupied and its color
differs from the origin square's color (the origin may be empty, in which
case any occupied destination yields the capture tag) — and never the
Check tag; with a nil position the move carries no tags at all. -/
theorem c5_uci_tags_amended :
    (∀ (pos : Position) (s : CStr) (m : Move),
      UCI.decode (some pos) s = Except.ok m →
      (m.tagKingSideCastle = true ↔ (pos.board m.S1).ptype = King ∧
        ((m.S1 = Sq.E1 ∧ m.S2 = Sq.G1) ∨ (m.S1 = Sq.E8 ∧ m.S2 = Sq.G8))) ∧
      (m.tagQueenSideCastle = true ↔ (pos.board m.S1).ptype = King ∧
        ((m.S1 = Sq.E1 ∧ m.S2 = Sq.C1) ∨ (m.S1 = Sq.E8 ∧ m.S2 = Sq.C8))) ∧
      (m.tagEnPassant = true ↔ (pos.board m.S1).ptype = Pawn ∧
        some m.S2 = pos.enPassantSquare) ∧
      (m.tagCapture = true ↔ ((pos.board m.S1).ptype = Pawn ∧
        some m.S2 = pos.enPassantSquare) ∨
        ((pos.board m.S2).color ≠ NoColor ∧
          (pos.board m.S1).color ≠ (pos.board m.S2).color)) ∧
      m.tagCheck = false) ∧
    (∀ (s : CStr) (m : Move), UCI.decode none s = Except.ok m →
      m.tagKingSideCastle = false ∧ m.tagQueenSideCastle = false ∧
      m.tagCapture = false ∧ m.tagEnPassant = false ∧ m.tagCheck = false) := by
  constructor
  · intro pos s m hm
    rcases uci_decode_ok_some pos s m hm with ⟨a, b, pr, rfl⟩
    rcases inferTags_fields pos (Move.bare a b pr) with ⟨f1, f2, f3⟩
    rw [f1, f2]
    have hba : (Move.bare a b pr).S1 = a := rfl
    have hbb : (Move.bare a b pr).S2 = b := rfl
    rw [hba, hbb]
    exact inferTags_bare_tags pos a b pr
  · intro s m hm
    rcases uci_decode_ok_none s m hm with ⟨a, b, pr, rfl⟩
    exact ⟨rfl, rfl, rfl, rfl, rfl⟩

/-- C5 counterexample: decoding "e4d5" in a position whose e4 square is
empty returns a move tagged Capture even though there is no mover whose
color the destination piece could oppose (the origin color is NoColor). -/
theorem c5_counterexample :
    UCI.decode (some emptyOriginPos) (str "e4d5") =
      Except.ok ⟨(28 : Fin 64), (35 : Fin 64), NoPieceType,
        false, false, true, false, false⟩ ∧
    (emptyOriginPos.board (28 : Fin 64)).color = NoColor ∧
    (emptyOriginPos.board (35 : Fin 64)).color = White :=
  ⟨rfl, rfl, rfl⟩

/-- C5 witness: "e2e4" decoded against the pawn position never carries the
Check tag, and "a7a8q" decoded without a position carries no tags. -/
theorem c5_uci_tags_amended_witness :
    (Move.bare (12 : Fin 64) (28 : Fin 64) NoPieceType).tagCheck = false ∧
    (Move.bare (48 : Fin 64) (56 : Fin 64) Queen).tagKingSideCastle = false :=
  ⟨((c5_uci_tags_amended.1 pawnPos (str "e2e4")
      (Move.bare (12 : Fin 64) (28 : Fin 64) NoPieceType)) rfl).2.2.2.2,
   ((c5_uci_tags_amended.2 (str "a7a8q")
      (Move.bare (48 : Fin 64) (56 : Fin 64) Queen)) rfl).1⟩

theorem squareFromStr_pair (x : Square) :
    squareFromStr [fileCharOf x, rankCharOf x] = some x :=
  squareFromStr_squareToStr x

/-- C9 (code evaluation): UCI decode's error text for the failing input
"e9e9" names long algebraic notation, not UCI, and SAN decode's error text
for the failing input "Qz9??" carries the stripped text "Qz9" rather than
the raw input, alongside the position rendering. -/
theorem c9_error_message_eval :
    UCI.decode (some pawnPos) (str "e9e9") =
      Except.error (UCI.errMsg (some pawnPos) (str "e9e9")) ∧
    occurs (str "long algebraic notation") (UCI.errMsg (some pawnPos) (str "e9e9")) =
      true ∧
    occurs (str "UCI") (UCI.errMsg (some pawnPos) (str "e9e9")) = false ∧
    occurs (str "e9e9") (UCI.errMsg (some pawnPos) (str "e9e9")) = true ∧
    SAN.decode pawnPos (str "Qz9??") = Except.error
      (str "chess: could not decode algebraic notation Qz9 for position pawn position") ∧
    occurs (str "Qz9??")
      (str "chess: could not decode algebraic notation Qz9 for position pawn position") =
      false ∧
    occurs (str "Qz9")
      (str "chess: could not decode algebraic notation Qz9 for position pawn position") =
      true ∧
    occurs pawnPos.render
      (str "chess: could not decode algebraic notation Qz9 for position pawn position") =
      true := by
  refine ⟨rfl, by decide, by decide, by decide, rfl, by decide, by decide, by decide⟩

/-- C1 counterexample: the rook-check position's legal move carries the
Check tag, but UCI decode of its UCI encoding returns the bare tagged-only
move, which differs from the original, so `decode (encode m) = m` fails for
UCI. -/
theorem c1_counterexample :
    rookCheckMove ∈ rookCheckPos.validMoves ∧
    UCI.decode (some rookCheckPos) (UCI.encode (some rookCheckPos) rookCheckMove) =
      Except.ok (Move.bare rookCheckMove.S1 rookCheckMove.S2 NoPieceType) ∧
    Move.bare rookCheckMove.S1 rookCheckMove.S2 NoPieceType ≠ rookCheckMove := by
  refine ⟨List.mem_cons_self _ _, rfl, ?_⟩
  decide

/-- C1 (amended): UCI decode of a UCI encoding returns the move with the
same origin, destination and promotion but carrying exactly the inferred
tags (for any promotion a legal move can carry); SAN and Long Algebraic
decode of the canonical encoding return the move itself whenever no other
legal move shares its stripped encoding. -/
theorem c1_roundtrip_amended :
    (∀ (pos : Position) (m : Move),
      (m.promo = NoPieceType ∨ m.promo = Queen ∨ m.promo = Rook ∨
        m.promo = Bishop ∨ m.promo = Knight) →
      UCI.decode (some pos) (UCI.encode (some pos) m) =
        Except.ok (UCI.inferTags pos (Move.bare m.S1 m.S2 m.promo))) ∧
    (∀ (pos : Position) (m : Move), m ∈ pos.validMoves →
      (∀ m' ∈ pos.validMoves,
        stripDecorations (SAN.encode pos m') = stripDecorations (SAN.encode pos m) →
        m' = m) →
      SAN.decode pos (SAN.encode pos m) = Except.ok m) ∧
    (∀ (pos : Position) (m : Move), m ∈ pos.validMoves →
      (∀ m' ∈ pos.validMoves,
        stripDecorations (LAN.encode pos m') = stripDecorations (LAN.encode pos m) →
        m' = m) →
      LAN.decode pos (LAN.encode pos m) = Except.ok m) := by
  refine ⟨?_, ?_, ?_⟩
  · intro pos m hpr
    have hx := squareFromStr_pair m.S1
    have hy := squareFromStr_pair m.S2
    rcases hpr with h | h | h | h | h <;>
      simp [UCI.encode, UCI.decode, squareToStr, pieceTypeLower, h, hx, hy,
        pieceTypeFromChar]
  · intro pos m hmem huniq
    simp only [SAN.decode, decodeLoop_eq_find]
    have hfind : pos.validMoves.find?
        (fun m' => stripDecorations (SAN.encode pos m') ==
          stripDecorations (SAN.encode pos m)) = some m := by
      apply find_first hmem
      · simp
      · intro x hx hpx
        exact huniq x hx (by simpa using hpx)
    rw [hfind]
  · intro pos m hmem huniq
    simp only [LAN.decode, decodeLoop_eq_find]
    have hfind : pos.validMoves.find?
        (fun m' => stripDecorations (LAN.encode pos m') ==
          stripDecorations (LAN.encode pos m)) = some m := by
      apply find_first hmem
      · simp
      · intro x hx hpx
        exact huniq x hx (by simpa using hpx)
    rw [hfind]

/-- C1 witness: in the pawn position the double step round-trips through
all three codecs (for UCI, up to re-inferred tags, which here coincide). -/
theorem c1_roundtrip_amended_witness :
    UCI.decode (some pawnPos) (UCI.encode (some pawnPos) pawnMove) =
      Except.ok (UCI.inferTags pawnPos
        (Move.bare pawnMove.S1 pawnMove.S2 pawnMove.promo)) ∧
    SAN.decode pawnPos (SAN.encode pawnPos pawnMove) = Except.ok pawnMove ∧
    LAN.decode pawnPos (LAN.encode pawnPos pawnMove) = Except.ok pawnMove :=
  ⟨c1_roundtrip_amended.1 pawnPos pawnMove (Or.inl rfl),
   c1_roundtrip_amended.2.1 pawnPos pawnMove (List.mem_cons_self _ _) (by decide),
   c1_roundtrip_amended.2.2 pawnPos pawnMove (List.mem_cons_self _ _) (by decide)⟩
